import Mathlib

/-!
Verification of the knowledge-distillation notebook
(`knowledge-distillation-with-nn-rankgauss-pytorch.ipynb`).

The development shallowly embeds the notebook's pure computations:
tensors become `List ℝ` (or `List ℚ` where the computation is exact
rational/rank arithmetic), two-column matrices become `List (ℝ × ℝ)`,
and `torch.mean` becomes sum-divided-by-length.  Library primitives
(`torch.clamp`, `torch.log`, `nn.BCELoss`, `scipy.special.erfinv`,
`np.argsort`) are modelled by the corresponding real functions; `erfinv`
is constructed below as the inverse of the Gaussian error function.
-/

namespace KD

/-! ## Generic helpers -/

/-- Arithmetic mean of a list of reals (`torch.mean` / `np.mean` on a
flattened tensor).  For the empty list this is `0 / 0 = 0`. -/
noncomputable def meanList (l : List ℝ) : ℝ := l.sum / (l.length : ℝ)

/-- Model of `torch.clamp(x, lo, hi)`: clamp `x` into the interval `[lo, hi]`. -/
noncomputable def clamp (x lo hi : ℝ) : ℝ := min (max x lo) hi

/-! ## Loss functions (notebook cell 5) -/

/-- The notebook's `focal_loss(y_true, y_pred, gamma)`:
clamps predictions into `[1e-7, 1 - 1e-7]`, forms the cross entropy
`-y * log p`, the focal weight `(1 - p) ** gamma`, and returns the mean
of their product.  The Python default `gamma=2.0` is passed explicitly
at call sites. -/
noncomputable def focal_loss (y_true y_pred : List ℝ) (gamma : ℝ) : ℝ :=
  let epsilon : ℝ := 1e-7
  let y_pred2 := y_pred.map (fun p => clamp p epsilon (1 - epsilon))
  let cross_entropy := List.zipWith (fun y p => -y * Real.log p) y_true y_pred2
  let focal_weight := y_pred2.map (fun p => (1 - p) ^ gamma)
  meanList (List.zipWith (· * ·) focal_weight cross_entropy)

/-- Model of `nn.BCELoss()(input, target)`: mean of
`-(t * log p + (1 - t) * log (1 - p))`, with each logarithm clamped to be
at least `-100` as documented for PyTorch's `BCELoss`. -/
noncomputable def bce_loss (input target : List ℝ) : ℝ :=
  meanList (List.zipWith
    (fun p t => -(t * max (Real.log p) (-100) + (1 - t) * max (Real.log (1 - p)) (-100)))
    input target)

/-- The notebook's `knowledge_distillation_loss(y_true, y_pred, beta)`:
the target matrix's first column holds the true labels and its second the
teacher predictions; the student prediction matrix is split the same way;
the result is `beta * focal_loss + (1 - beta) * BCELoss`.  Rows of the
two-column matrices are modelled as pairs.  The Python default
`beta=0.1` is passed explicitly at call sites. -/
noncomputable def knowledge_distillation_loss
    (y_true y_pred : List (ℝ × ℝ)) (beta : ℝ) : ℝ :=
  let true_labels := y_true.map Prod.fst
  let teacher_preds := y_true.map Prod.snd
  let student_preds1 := y_pred.map Prod.fst
  let student_preds2 := y_pred.map Prod.snd
  let fl_loss := focal_loss true_labels student_preds1 2
  let distill_loss := bce_loss student_preds2 teacher_preds
  beta * fl_loss + (1 - beta) * distill_loss

/-! ## Focal loss without clamping (spec section 8) -/

/-- Variant of the notebook's `focal_loss` with the clamping step removed;
this is the "absent clamping" reading used by the spec's testable
property about exact matches and monotonicity. -/
noncomputable def focal_loss_noclamp (y_true y_pred : List ℝ) (gamma : ℝ) : ℝ :=
  meanList (List.zipWith
    (fun y p => (1 - p) ^ gamma * (-y * Real.log p)) y_true y_pred)

/-! ## The Gaussian error function and its inverse

`scipy.special.erfinv` is the inverse of the error function
`erf x = (2/sqrt pi) * integral of exp (-t^2) from 0 to x`; we construct
both and prove the facts about them that the scaler claims need. -/

/-- The Gaussian error function. -/
noncomputable def erf (x : ℝ) : ℝ :=
  (2 / Real.sqrt Real.pi) * ∫ t in (0:ℝ)..x, Real.exp (-t ^ 2)

/-- Model of `scipy.special.erfinv`: the inverse of `erf` (as a two-sided inverse
on `(-1, 1)`, which is all the scaler ever applies it to). -/
noncomputable def erfinv (y : ℝ) : ℝ := Function.invFun erf y

/-! ## GaussRankScaler (notebook cell 11)

`fit_transform` computes `j = np.argsort(np.argsort(X, axis=0), axis=0)`
per column — the rank of each value — then
`erfinv(j / divider - upper)` with `divider = (len(j) - 1) / range`.
`np.argsort` is modelled as a sort of the index list `range n` comparing
values with ties broken by the original position (a stable order; the
tie order of numpy's default introsort is unspecified, and the spec reads
the ranks as stable).  Matrices are stored column-major (a list of
columns), matching the per-column independence of `axis=0`. -/

/-- Index comparison behind `np.argsort`: position `a` precedes position
`b` when its value is smaller, or on ties when `a ≤ b`. -/
def idxLe {α : Type} [LinearOrder α] [Inhabited α] (xs : List α) (a b : ℕ) : Prop :=
  xs.getD a default < xs.getD b default ∨
    (xs.getD a default = xs.getD b default ∧ a ≤ b)

instance {α : Type} [LinearOrder α] [Inhabited α] (xs : List α) :
    DecidableRel (idxLe xs) := fun a b => by
  unfold idxLe
  infer_instance

instance {α : Type} [LinearOrder α] [Inhabited α] (xs : List α) :
    IsTotal ℕ (idxLe xs) where
  total a b := by
    rcases lt_trichotomy (xs.getD a default) (xs.getD b default) with h | h | h
    · exact Or.inl (Or.inl h)
    · rcases Nat.le_total a b with hab | hab
      · exact Or.inl (Or.inr ⟨h, hab⟩)
      · exact Or.inr (Or.inr ⟨h.symm, hab⟩)
    · exact Or.inr (Or.inl h)

instance {α : Type} [LinearOrder α] [Inhabited α] (xs : List α) :
    IsTrans ℕ (idxLe xs) where
  trans a b c hab hbc := by
    rcases hab with h1 | ⟨h1, h1'⟩ <;> rcases hbc with h2 | ⟨h2, h2'⟩
    · exact Or.inl (h1.trans h2)
    · exact Or.inl (h2 ▸ h1)
    · exact Or.inl (h1 ▸ h2)
    · exact Or.inr ⟨h1.trans h2, h1'.trans h2'⟩

instance {α : Type} [LinearOrder α] [Inhabited α] (xs : List α) :
    IsAntisymm ℕ (idxLe xs) where
  antisymm a b hab hba := by
    rcases hab with h1 | ⟨h1, h1'⟩ <;> rcases hba with h2 | ⟨h2, h2'⟩
    · exact absurd (h1.trans h2) (lt_irrefl _)
    · exact absurd h1 (h2 ▸ lt_irrefl _)
    · exact absurd h2 (h1 ▸ lt_irrefl _)
    · exact Nat.le_antisymm h1' h2'

/-- Strict version of `idxLe`. -/
def idxLt {α : Type} [LinearOrder α] [Inhabited α] (xs : List α) (a b : ℕ) : Prop :=
  idxLe xs a b ∧ a ≠ b

instance {α : Type} [LinearOrder α] [Inhabited α] (xs : List α) :
    DecidableRel (idxLt xs) := fun a b => by
  unfold idxLt
  infer_instance

/-- Model of `np.argsort(xs)`: the index list `range n` sorted by value. -/
def argsort {α : Type} [LinearOrder α] [Inhabited α] (xs : List α) : List ℕ :=
  List.insertionSort (idxLe xs) (List.range xs.length)

/-- The stable rank of position `r`: the number of positions that sort
strictly before it (smaller value, or equal value and smaller index). -/
def rankOf {α : Type} [LinearOrder α] [Inhabited α] (xs : List α) (r : ℕ) : ℕ :=
  (List.range xs.length).countP (fun k => decide (idxLt xs k r))

/-- Constant `self.epsilon = 1e-9`. -/
def grEpsilon : ℚ := 1e-9

/-- Constant `self.lower = -1 + self.epsilon`. -/
def grLower : ℚ := -1 + grEpsilon

/-- Constant `self.upper = 1 - self.epsilon`. -/
def grUpper : ℚ := 1 - grEpsilon

/-- Constant `self.range = self.upper - self.lower`. -/
def grRange : ℚ := grUpper - grLower

/-- The stored `self.divider = j_range / self.range` with `j_range = len(j) - 1`. -/
def divider (n : ℕ) : ℚ := ((n : ℚ) - 1) / grRange

/-- One rank's rescaled value: `j / self.divider - self.upper`. -/
def rescale (n j : ℕ) : ℚ := (j : ℚ) / divider n - grUpper

/-- One column of `fit_transform`: double argsort, rescale, `erfinv`. -/
noncomputable def fitColumn (xs : List ℚ) : List ℝ :=
  (argsort (argsort xs)).map (fun j => erfinv ((rescale xs.length j : ℚ) : ℝ))

/-- The state `fit_transform` leaves on the scaler object: the scalar
`self.divider`. -/
structure GaussRankState where
  divider : ℚ

/-- Number of rows of a column-major matrix. -/
def numRows (X : List (List ℚ)) : ℕ := (X.headD []).length

/-- Model of `GaussRankScaler.fit_transform`: per-column rank transform, plus the
stored scalar divider. -/
noncomputable def fit_transform (X : List (List ℚ)) : GaussRankState × List (List ℝ) :=
  (⟨divider (numRows X)⟩, X.map fitColumn)

/-- The methods defined in `class GaussRankScaler` (notebook cell 11). -/
def gaussRankScalerMethods : List String := ["__init__", "fit_transform"]

/-! ## Training loop bookkeeping (notebook cell 9) -/

/-- One fold's epoch loop, with the SGD dynamics abstracted into the
per-epoch mean validation loss `vl`.  `best_val_loss` starts at
`float('inf')` (modelled as `none`); after each epoch `e`, if the epoch's
mean validation loss improves on the best so far, the parameters are
saved (`torch.save`, recorded by appending `e` to the save log) and the
best is updated. -/
noncomputable def bestAndSaves (vl : ℕ → ℝ) : ℕ → Option ℝ × List ℕ
  | 0 => (none, [])
  | e + 1 =>
    let prev := bestAndSaves vl e
    match prev.1 with
    | none => (some (vl e), prev.2 ++ [e])
    | some b => if vl e < b then (some (vl e), prev.2 ++ [e]) else prev

/-- The notebook's `train_model(X, y, teacher_preds, n_splits, epochs, batch_size)`:
for each fold a fresh model and optimizer are built and `epochs` epochs
are run, each a pass over the shuffled training batches followed by a
no-gradient validation pass; the training dynamics are abstracted into
`vloss fold epoch`, the mean validation loss of that epoch.  Returns
`np.mean(fold_scores)` together with the log of checkpoint saves
`(fold, epoch)`. -/
noncomputable def train_model (vloss : ℕ → ℕ → ℝ) (n_splits epochs : ℕ) :
    ℝ × List (ℕ × ℕ) :=
  let results := (List.range n_splits).map (fun f =>
    ((bestAndSaves (vloss f) epochs).1.getD 0,
     (bestAndSaves (vloss f) epochs).2.map (fun e => (f, e))))
  (meanList (results.map Prod.fst), (results.map Prod.snd).flatten)

/-! ## Checkpoint files (frame model)

The checkpoint path `best_model_fold_N.pt` depends only on the fold
index `N`, so every `train_model` call addresses the same files; the
file system is keyed by the fold index directly. -/

/-- A file system mapping fold indices to saved parameter sets. -/
def FS (α : Type) : Type := ℕ → Option α

/-- Model of `torch.save(model.state_dict(), ...)` to a fold's file. -/
def fsWrite {α : Type} (fs : FS α) (f : ℕ) (v : α) : FS α :=
  fun g => if g = f then some v else fs g

/-- The checkpoint writes of one completed `train_model` call whose fold
`f` last persisted parameters `c f` (with `epochs ≥ 1` every fold saves
at least once, as epoch 0 always improves on infinity). -/
def runCkWrites {α : Type} (fs : FS α) (c : ℕ → α) (k : ℕ) : FS α :=
  (List.range k).foldl (fun acc f => fsWrite acc f (c f)) fs

/-- The inference stage's loads: `torch.load('best_model_fold_N.pt')`
for each fold in `range(n_splits)` (notebook cell 22). -/
def predictLoad {α : Type} (fs : FS α) (k : ℕ) : List (Option α) :=
  (List.range k).map fs

/-! ## Student model and the submission stage (cells 3 and 22) -/

/-- Model of `nn.ReLU`. -/
noncomputable def relu (x : ℝ) : ℝ := max x 0

/-- Model of `nn.Sigmoid`. -/
noncomputable def sigmoid (x : ℝ) : ℝ := 1 / (1 + Real.exp (-x))

/-- Dot product of a weight row with an input vector. -/
noncomputable def dotProd (w x : List ℝ) : ℝ := (List.zipWith (· * ·) w x).sum

/-- Parameters of one `nn.Linear` layer. -/
structure LinearLayer where
  weight : List (List ℝ)
  bias : List ℝ

/-- Model of `nn.Linear`: each output unit is the dot product of its weight row
with the input, plus its bias. -/
noncomputable def linearForward (L : LinearLayer) (x : List ℝ) : List ℝ :=
  List.zipWith (fun w b => dotProd w x + b) L.weight L.bias

/-- The student model's parameters: `layer1` (16 hidden units) and
`output` (2 units); the widths live in the lengths of the parameter
lists. -/
structure StudentModel where
  layer1 : LinearLayer
  output : LinearLayer

/-- Model of `StudentModel.forward`: flatten (a no-op on a single row), hidden
layer with `ReLU`, output layer with `Sigmoid`. -/
noncomputable def StudentModel.forward (m : StudentModel) (x : List ℝ) : List ℝ :=
  (linearForward m.output ((linearForward m.layer1 x).map relu)).map sigmoid

/-- One fold's test-set predictions: `outputs[:, 0]` per test row. -/
noncomputable def predictFold (m : StudentModel) (X : List (List ℝ)) : List ℝ :=
  X.map (fun row => (m.forward row).getD 0 0)

/-- Model of `np.mean(test_preds, axis=0)` for `mrows` test rows. -/
noncomputable def final_preds (test_preds : List (List ℝ)) (mrows : ℕ) : List ℝ :=
  (List.range mrows).map (fun i => meanList (test_preds.map (fun l => l.getD i 0)))

/-- The `target` column of `submission.csv`: fold-averaged first sigmoid
outputs on the test rows. -/
noncomputable def submissionTargets (models : List StudentModel) (Xtest : List (List ℝ)) :
    List ℝ :=
  final_preds (models.map (fun m => predictFold m Xtest)) Xtest.length

/-! ## Call compatibility of the four experiments (cells 14, 16, 18, 20) -/

/-- The parameter names of
`def train_model(X, y, teacher_preds, n_splits=5, epochs=100, batch_size=32)`. -/
def trainModelParams : List String :=
  ["X", "y", "teacher_preds", "n_splits", "epochs", "batch_size"]

/-- Keyword arguments of experiment 1's call (inside `train_simple_nn`). -/
def exp1Kwargs : List String := ["n_splits", "epochs", "batch_size", "criterion"]

/-- Keyword arguments of experiment 2's call. -/
def exp2Kwargs : List String := ["n_splits", "epochs", "batch_size"]

/-- Keyword arguments of experiment 3's call. -/
def exp3Kwargs : List String := ["n_splits", "epochs", "batch_size", "criterion"]

/-- Keyword arguments of experiment 4's call. -/
def exp4Kwargs : List String := ["n_splits", "epochs", "batch_size", "criterion"]

/-- Each experiment passes `X, y, teacher_preds` positionally; Python
accepts the call only if every keyword names one of the function's
parameters, otherwise it raises `TypeError: unexpected keyword
argument`. -/
def callAccepted (kwargs : List String) : Bool :=
  kwargs.all (fun k => trainModelParams.contains k)

/-! ## Theorems -/

theorem clamp_le (x lo hi : ℝ) : clamp x lo hi ≤ hi := min_le_right _ _

theorem le_clamp (x lo hi : ℝ) (h : lo ≤ hi) : lo ≤ clamp x lo hi :=
  le_min (le_max_right _ _) h

/-- Fusion of the three elementwise passes of `focal_loss` into a single
pointwise formula. -/
theorem focal_fuse (w : ℝ → ℝ) (c : ℝ → ℝ) (ce : ℝ → ℝ → ℝ) :
    ∀ (y p : List ℝ),
      List.zipWith (· * ·) ((p.map c).map w) (List.zipWith ce y (p.map c)) =
        List.zipWith (fun a b => w (c b) * ce a (c b)) y p := by
  intro y
  induction y with
  | nil => intro p; simp
  | cons a ys ih =>
    intro p
    cases p with
    | nil => simp
    | cons b ps =>
      simp only [List.map_map] at ih
      simp [ih ps]

/-- C2: `focal_loss(y, p, gamma)` is the mean over all elements of
`(1 - p')^gamma * (-y * log p')` where `p'` is `p` clamped into
`[1e-7, 1 - 1e-7]`; the clamped value is positive (in particular `log`
never receives `0`) and at most `1 - 1e-7`. -/
theorem focal_loss_spec (y p : List ℝ) (gamma : ℝ) (h : y.length = p.length) :
    focal_loss y p gamma =
      (List.zipWith (fun yi pi =>
          (1 - clamp pi (1e-7) (1 - 1e-7)) ^ gamma *
            (-yi * Real.log (clamp pi (1e-7) (1 - 1e-7)))) y p).sum
        / (y.length : ℝ)
    ∧ (∀ x : ℝ, (1e-7 : ℝ) ≤ clamp x (1e-7) (1 - 1e-7)
        ∧ clamp x (1e-7) (1 - 1e-7) ≤ 1 - 1e-7)
    ∧ (∀ x : ℝ, 0 < clamp x (1e-7) (1 - 1e-7)) := by
  refine ⟨?_, fun x => ⟨le_clamp x _ _ (by norm_num), clamp_le x _ _⟩, fun x => ?_⟩
  · simp only [focal_loss, meanList]
    rw [focal_fuse (fun q => (1 - q) ^ gamma) (fun q => clamp q (1e-7) (1 - 1e-7))
      (fun a b => -a * Real.log b) y p]
    rw [List.length_zipWith, h, min_self]
  · have := le_clamp x (1e-7) (1 - 1e-7) (by norm_num)
    linarith

/-- Witness for `focal_loss_spec` at `y = [1]`, `p = [2]`, `gamma = 2`. -/
theorem focal_loss_spec_witness :
    ([(1 : ℝ)].length = [(2 : ℝ)].length)
    ∧ (focal_loss [(1 : ℝ)] [(2 : ℝ)] 2 =
        (List.zipWith (fun yi pi =>
            (1 - clamp pi (1e-7) (1 - 1e-7)) ^ (2 : ℝ) *
              (-yi * Real.log (clamp pi (1e-7) (1 - 1e-7)))) [(1 : ℝ)] [(2 : ℝ)]).sum
          / (([(1 : ℝ)].length : ℕ) : ℝ)
      ∧ (∀ x : ℝ, (1e-7 : ℝ) ≤ clamp x (1e-7) (1 - 1e-7)
          ∧ clamp x (1e-7) (1 - 1e-7) ≤ 1 - 1e-7)
      ∧ (∀ x : ℝ, 0 < clamp x (1e-7) (1 - 1e-7))) :=
  ⟨rfl, focal_loss_spec [(1 : ℝ)] [(2 : ℝ)] 2 rfl⟩

/-- C1: `knowledge_distillation_loss` splits the target matrix into true
label (first column) and teacher probability (second column), splits the
student predictions likewise, and returns exactly
`beta * focal_loss + (1 - beta) * BCE`; with the default `beta = 0.1`
the teacher term carries weight `0.9`. -/
theorem knowledge_distillation_loss_spec (y_true y_pred : List (ℝ × ℝ)) :
    knowledge_distillation_loss y_true y_pred 0.1 =
      0.1 * focal_loss (y_true.map Prod.fst) (y_pred.map Prod.fst) 2
        + 0.9 * bce_loss (y_pred.map Prod.snd) (y_true.map Prod.snd)
    ∧ ∀ beta : ℝ, knowledge_distillation_loss y_true y_pred beta =
        beta * focal_loss (y_true.map Prod.fst) (y_pred.map Prod.fst) 2
          + (1 - beta) * bce_loss (y_pred.map Prod.snd) (y_true.map Prod.snd) := by
  constructor
  · show (0.1 : ℝ) * _ + (1 - 0.1) * _ = _
    norm_num
  · intro beta
    rfl

theorem continuous_gaussKernel : Continuous fun t : ℝ => Real.exp (-t ^ 2) := by
  continuity

theorem intervalIntegrable_gaussKernel (a b : ℝ) :
    IntervalIntegrable (fun t : ℝ => Real.exp (-t ^ 2)) MeasureTheory.volume a b :=
  continuous_gaussKernel.intervalIntegrable a b

theorem sqrt_pi_pos : 0 < Real.sqrt Real.pi := Real.sqrt_pos.2 Real.pi_pos

theorem erf_coeff_pos : 0 < 2 / Real.sqrt Real.pi := by positivity

theorem erf_strictMono : StrictMono erf := by
  intro a b hab
  unfold erf
  have hsplit : (∫ t in (0:ℝ)..b, Real.exp (-t ^ 2)) =
      (∫ t in (0:ℝ)..a, Real.exp (-t ^ 2)) + ∫ t in a..b, Real.exp (-t ^ 2) :=
    (intervalIntegral.integral_add_adjacent_intervals
      (intervalIntegrable_gaussKernel 0 a) (intervalIntegrable_gaussKernel a b)).symm
  have hpos : 0 < ∫ t in a..b, Real.exp (-t ^ 2) :=
    intervalIntegral.intervalIntegral_pos_of_pos
      (intervalIntegrable_gaussKernel a b) (fun x => Real.exp_pos _) hab
  have := erf_coeff_pos
  rw [hsplit]
  nlinarith

theorem erf_zero : erf 0 = 0 := by
  unfold erf
  simp

theorem erf_neg (x : ℝ) : erf (-x) = -erf x := by
  unfold erf
  have h1 : (∫ t in (0:ℝ)..(-x), Real.exp (-t ^ 2)) =
      ∫ t in (0:ℝ)..(-x), Real.exp (-(-t) ^ 2) := by
    apply intervalIntegral.integral_congr
    intro t _
    simp
  have h2 : (∫ t in (0:ℝ)..(-x), Real.exp (-(-t) ^ 2)) =
      ∫ t in x..(0:ℝ), Real.exp (-t ^ 2) := by
    have h := intervalIntegral.integral_comp_neg (fun t : ℝ => Real.exp (-t ^ 2))
      (a := (0:ℝ)) (b := -x)
    simpa using h
  rw [h1, h2, intervalIntegral.integral_symm]
  ring

theorem erf_continuous : Continuous erf := by
  unfold erf
  exact continuous_const.mul
    (intervalIntegral.continuous_primitive
      (fun a b => intervalIntegrable_gaussKernel a b) 0)

theorem integrableOn_gaussKernel_Ioi (x : ℝ) :
    MeasureTheory.IntegrableOn (fun t : ℝ => Real.exp (-t ^ 2))
      (Set.Ioi x) MeasureTheory.volume := by
  have h : MeasureTheory.Integrable (fun t : ℝ => Real.exp (-(1:ℝ) * t ^ 2)) :=
    integrable_exp_neg_mul_sq one_pos
  have h' : MeasureTheory.Integrable (fun t : ℝ => Real.exp (-t ^ 2)) := by
    simpa using h
  exact h'.integrableOn

theorem integral_gaussKernel_Ioi_zero :
    (∫ t in Set.Ioi (0:ℝ), Real.exp (-t ^ 2)) = Real.sqrt Real.pi / 2 := by
  have := integral_gaussian_Ioi 1
  simpa using this

/-- The function `erf` tends to `1` as `x` tends to infinity. -/
theorem erf_tendsto_one :
    Filter.Tendsto erf Filter.atTop (nhds 1) := by
  have h1 := MeasureTheory.intervalIntegral_tendsto_integral_Ioi 0
    (integrableOn_gaussKernel_Ioi 0) Filter.tendsto_id
  have h2 : Filter.Tendsto (fun R : ℝ => (2 / Real.sqrt Real.pi) *
      ∫ t in (0:ℝ)..R, Real.exp (-t ^ 2)) Filter.atTop
      (nhds ((2 / Real.sqrt Real.pi) * (Real.sqrt Real.pi / 2))) := by
    have := h1.const_mul (2 / Real.sqrt Real.pi)
    rwa [integral_gaussKernel_Ioi_zero] at this
  have h3 : (2 / Real.sqrt Real.pi) * (Real.sqrt Real.pi / 2) = 1 := by
    field_simp
  rw [h3] at h2
  exact h2

/-- The function `erf` attains every value strictly between `-1` and `1`. -/
theorem exists_erf_eq {y : ℝ} (h1 : -1 < y) (h2 : y < 1) : ∃ x, erf x = y := by
  obtain ⟨R, hR⟩ : ∃ R : ℝ, y < erf R := by
    have hev := erf_tendsto_one.eventually (eventually_gt_nhds h2)
    exact hev.exists
  obtain ⟨L, hL⟩ : ∃ L : ℝ, -y < erf L := by
    have hev := erf_tendsto_one.eventually (eventually_gt_nhds (by linarith : -y < 1))
    exact hev.exists
  set M : ℝ := max (max R L) 0 with hM
  have hM0 : 0 ≤ M := le_max_right _ _
  have hRM : y < erf M :=
    lt_of_lt_of_le hR (erf_strictMono.monotone ((le_max_left R L).trans (le_max_left _ _)))
  have hLM : erf (-M) < y := by
    have h4 : -y < erf M :=
      lt_of_lt_of_le hL (erf_strictMono.monotone ((le_max_right R L).trans (le_max_left _ _)))
    rw [erf_neg]
    linarith
  have hmem : y ∈ Set.Icc (erf (-M)) (erf M) := ⟨le_of_lt hLM, le_of_lt hRM⟩
  have hsub := intermediate_value_Icc (by linarith : -M ≤ M) erf_continuous.continuousOn
  obtain ⟨x, _, hx⟩ := hsub hmem
  exact ⟨x, hx⟩

theorem erf_erfinv {y : ℝ} (h1 : -1 < y) (h2 : y < 1) : erf (erfinv y) = y :=
  Function.invFun_eq (exists_erf_eq h1 h2)

theorem erfinv_strictMonoOn {y1 y2 : ℝ} (h1 : -1 < y1) (h2 : y2 < 1) (h : y1 < y2) :
    erfinv y1 < erfinv y2 := by
  have e1 : erf (erfinv y1) = y1 := erf_erfinv h1 (h.trans h2)
  have e2 : erf (erfinv y2) = y2 := erf_erfinv (h1.trans h) h2
  have : erf (erfinv y1) < erf (erfinv y2) := by rw [e1, e2]; exact h
  exact erf_strictMono.lt_iff_lt.1 this

theorem erfinv_neg {y : ℝ} (h1 : -1 < y) (h2 : y < 1) : erfinv (-y) = -erfinv y := by
  apply erf_strictMono.injective
  rw [erf_erfinv (by linarith) (by linarith), erf_neg, erf_erfinv h1 h2]

theorem erfinv_zero : erfinv 0 = 0 := by
  apply erf_strictMono.injective
  rw [erf_erfinv (by norm_num) (by norm_num), erf_zero]

/-- The tail identity: `1 - erf x` is the scaled Gaussian tail integral. -/
theorem one_sub_erf (x : ℝ) :
    1 - erf x = (2 / Real.sqrt Real.pi) * ∫ t in Set.Ioi x, Real.exp (-t ^ 2) := by
  have h1 := MeasureTheory.intervalIntegral_tendsto_integral_Ioi x
    (integrableOn_gaussKernel_Ioi x) Filter.tendsto_id
  have h2 : Filter.Tendsto (fun R : ℝ => erf R - erf x) Filter.atTop
      (nhds (1 - erf x)) := erf_tendsto_one.sub_const (erf x)
  have h3 : ∀ R : ℝ, erf R - erf x = (2 / Real.sqrt Real.pi) *
      ∫ t in x..R, Real.exp (-t ^ 2) := by
    intro R
    unfold erf
    have hsplit : (∫ t in (0:ℝ)..R, Real.exp (-t ^ 2)) =
        (∫ t in (0:ℝ)..x, Real.exp (-t ^ 2)) + ∫ t in x..R, Real.exp (-t ^ 2) :=
      (intervalIntegral.integral_add_adjacent_intervals
        (intervalIntegrable_gaussKernel 0 x) (intervalIntegrable_gaussKernel x R)).symm
    rw [hsplit]
    ring
  have h4 : Filter.Tendsto (fun R : ℝ => erf R - erf x) Filter.atTop
      (nhds ((2 / Real.sqrt Real.pi) * ∫ t in Set.Ioi x, Real.exp (-t ^ 2))) := by
    have := h1.const_mul (2 / Real.sqrt Real.pi)
    apply Filter.Tendsto.congr _ this
    intro R
    exact (h3 R).symm
  exact tendsto_nhds_unique h2 h4

/-- Quantitative tail bound: `erf 2` falls short of `1` by more than the
scaler's epsilon `1e-9`. -/
theorem erf_two_lt : erf 2 < 1 - 1e-9 := by
  have htail : Real.exp (-9) ≤ ∫ t in Set.Ioi (2:ℝ), Real.exp (-t ^ 2) := by
    have hlow : Real.exp (-9) ≤ ∫ t in (2:ℝ)..3, Real.exp (-t ^ 2) := by
      have hconst : (∫ _ in (2:ℝ)..3, Real.exp (-9)) = Real.exp (-9) := by
        rw [intervalIntegral.integral_const]
        norm_num
      rw [← hconst]
      apply intervalIntegral.integral_mono_on (by norm_num)
        (intervalIntegrable_const) (intervalIntegrable_gaussKernel 2 3)
      intro t ht
      apply Real.exp_le_exp.2
      nlinarith [ht.1, ht.2]
    have hsub : (∫ t in (2:ℝ)..3, Real.exp (-t ^ 2)) ≤
        ∫ t in Set.Ioi (2:ℝ), Real.exp (-t ^ 2) := by
      rw [intervalIntegral.integral_of_le (by norm_num : (2:ℝ) ≤ 3)]
      apply MeasureTheory.setIntegral_mono_set (integrableOn_gaussKernel_Ioi 2)
      · filter_upwards with t
        exact Real.exp_nonneg _
      · filter_upwards with t ht
        exact Set.Ioc_subset_Ioi_self ht
    linarith
  have hcoeff : (1:ℝ) ≤ 2 / Real.sqrt Real.pi := by
    have hle : Real.sqrt Real.pi ≤ 2 := by
      have h4 : Real.sqrt Real.pi ≤ Real.sqrt 4 := Real.sqrt_le_sqrt Real.pi_le_four
      have : Real.sqrt 4 = 2 := by
        rw [show (4:ℝ) = 2 ^ 2 by norm_num, Real.sqrt_sq (by norm_num : (0:ℝ) ≤ 2)]
      linarith
    rw [le_div_iff₀ sqrt_pi_pos]
    linarith
  have hexp : (1e-9 : ℝ) < Real.exp (-9) := by
    rw [Real.exp_neg]
    have h9 : Real.exp 9 < 19683 := by
      have h1 : Real.exp 9 = Real.exp 1 ^ 9 := by
        rw [← Real.exp_nat_mul]
        norm_num
      have h3 : Real.exp 1 < 3 := lt_trans Real.exp_one_lt_d9 (by norm_num)
      have : Real.exp 1 ^ 9 < 3 ^ 9 :=
        pow_lt_pow_left₀ h3 (le_of_lt (Real.exp_pos 1)) (by norm_num)
      rw [h1]
      calc Real.exp 1 ^ 9 < 3 ^ 9 := this
        _ = 19683 := by norm_num
    calc (1e-9 : ℝ) < (19683:ℝ)⁻¹ := by norm_num
      _ < (Real.exp 9)⁻¹ := by
          apply inv_strictAnti₀ (Real.exp_pos 9) h9
  have hkey : 1 - erf 2 > 1e-9 := by
    rw [one_sub_erf 2]
    have htp : (0:ℝ) < ∫ t in Set.Ioi (2:ℝ), Real.exp (-t ^ 2) := by
      linarith [Real.exp_pos (-9)]
    calc (1e-9 : ℝ) < Real.exp (-9) := hexp
      _ ≤ ∫ t in Set.Ioi (2:ℝ), Real.exp (-t ^ 2) := htail
      _ = 1 * ∫ t in Set.Ioi (2:ℝ), Real.exp (-t ^ 2) := by ring
      _ ≤ (2 / Real.sqrt Real.pi) * ∫ t in Set.Ioi (2:ℝ), Real.exp (-t ^ 2) := by
          apply mul_le_mul_of_nonneg_right hcoeff (le_of_lt htp)
  linarith

/-- The inverse error function at `1 - 1e-9` exceeds `2`. -/
theorem two_lt_erfinv_upper : (2:ℝ) < erfinv (1 - 1e-9) := by
  have hu1 : (-1:ℝ) < 1 - 1e-9 := by norm_num
  have hu2 : (1 - 1e-9 : ℝ) < 1 := by norm_num
  have he : erf (erfinv (1 - 1e-9)) = 1 - 1e-9 := erf_erfinv hu1 hu2
  have : erf 2 < erf (erfinv (1 - 1e-9)) := by
    rw [he]
    exact erf_two_lt
  exact erf_strictMono.lt_iff_lt.1 this

/-- A single unclamped focal term is monotone as the prediction moves away
from the label `1` within `(0, 1]`. -/
theorem focal_term_mono {p q : ℝ} (hq0 : 0 < q) (hqp : q ≤ p) (hp1 : p ≤ 1) :
    (1 - p) ^ (2 : ℝ) * (-(1 : ℝ) * Real.log p) ≤
      (1 - q) ^ (2 : ℝ) * (-(1 : ℝ) * Real.log q) := by
  rw [Real.rpow_two, Real.rpow_two]
  have hq1 : q ≤ 1 := le_trans hqp hp1
  have h1 : (1 - p) ^ 2 ≤ (1 - q) ^ 2 := by
    apply pow_le_pow_left₀ (by linarith) (by linarith)
  have h2 : -Real.log p ≤ -Real.log q := by
    have := Real.log_le_log hq0 hqp
    linarith
  have h3 : 0 ≤ -Real.log p := by
    have := Real.log_nonpos (by linarith : (0:ℝ) ≤ p) hp1
    linarith
  have h4 : (0:ℝ) ≤ (1 - q) ^ 2 := sq_nonneg _
  calc (1 - p) ^ 2 * (-(1:ℝ) * Real.log p)
      = (1 - p) ^ 2 * (-Real.log p) := by ring
    _ ≤ (1 - q) ^ 2 * (-Real.log q) := mul_le_mul h1 h2 h3 h4
    _ = (1 - q) ^ 2 * (-(1:ℝ) * Real.log q) := by ring

/-- Pointwise bounds between zipped sums. -/
theorem sum_zipWith_le (f : ℝ → ℝ → ℝ) :
    ∀ (y p q : List ℝ), p.length = y.length → q.length = y.length →
      (∀ i, i < y.length → f (y.getD i 0) (p.getD i 0) ≤ f (y.getD i 0) (q.getD i 0)) →
      (List.zipWith f y p).sum ≤ (List.zipWith f y q).sum := by
  intro y
  induction y with
  | nil => intro p q _ _ _; simp
  | cons a ys ih =>
    intro p q hp hq hpt
    cases p with
    | nil => simp at hp
    | cons b ps =>
      cases q with
      | nil => simp at hq
      | cons c qs =>
        simp only [List.zipWith_cons_cons, List.sum_cons]
        have h0 := hpt 0 (by simp)
        simp only [List.getD_cons_zero] at h0
        have htail : (List.zipWith f ys ps).sum ≤ (List.zipWith f ys qs).sum := by
          apply ih ps qs (by simpa using hp) (by simpa using hq)
          intro i hi
          have := hpt (i + 1) (by simpa using Nat.succ_lt_succ hi)
          simpa only [List.getD_cons_succ] using this
        linarith

/-- C8: absent clamping, the focal loss (at the default `gamma = 2`)
vanishes when the prediction exactly matches a binary label, and for a
fixed binary label it does not decrease as predictions move further from
the label (downward within `(0, 1]` where the label is `1`; the terms at
label `0` are identically zero). -/
theorem focal_loss_noclamp_spec (y p q : List ℝ)
    (hp : p.length = y.length) (hq : q.length = y.length)
    (hbin : ∀ yi ∈ y, yi = 0 ∨ yi = 1)
    (hfar : ∀ i, i < y.length → y.getD i 0 = 1 →
      0 < q.getD i 0 ∧ q.getD i 0 ≤ p.getD i 0 ∧ p.getD i 0 ≤ 1) :
    focal_loss_noclamp y y 2 = 0 ∧
    focal_loss_noclamp y p 2 ≤ focal_loss_noclamp y q 2 := by
  constructor
  · unfold focal_loss_noclamp meanList
    rw [List.zipWith_same]
    have hz : ∀ x ∈ y.map (fun a => (1 - a) ^ (2:ℝ) * (-a * Real.log a)), x = 0 := by
      intro x hx
      rcases List.mem_map.1 hx with ⟨a, ha, rfl⟩
      rcases hbin a ha with h | h
      · subst h; simp
      · subst h
        rw [Real.rpow_two]
        simp
    rw [List.sum_eq_zero hz, zero_div]
  · unfold focal_loss_noclamp meanList
    have hlen1 : (List.zipWith (fun yv pv => (1 - pv) ^ (2:ℝ) * (-yv * Real.log pv)) y p).length
        = y.length := by
      rw [List.length_zipWith, hp, min_self]
    have hlen2 : (List.zipWith (fun yv pv => (1 - pv) ^ (2:ℝ) * (-yv * Real.log pv)) y q).length
        = y.length := by
      rw [List.length_zipWith, hq, min_self]
    rw [hlen1, hlen2]
    have hsum : (List.zipWith (fun yv pv => (1 - pv) ^ (2:ℝ) * (-yv * Real.log pv)) y p).sum
        ≤ (List.zipWith (fun yv pv => (1 - pv) ^ (2:ℝ) * (-yv * Real.log pv)) y q).sum := by
      apply sum_zipWith_le _ y p q hp hq
      intro i hi
      have hmem : y.getD i 0 ∈ y := by
        rw [List.getD_eq_getElem y 0 hi]
        exact List.getElem_mem hi
      rcases hbin _ hmem with h0 | h1
      · rw [h0]
        simp
      · rcases hfar i hi h1 with ⟨hq0, hqp, hp1⟩
        rw [h1]
        exact focal_term_mono hq0 hqp hp1
    rcases Nat.eq_zero_or_pos y.length with h0 | hpos
    · rw [h0]
      simp
    · have hc : (0:ℝ) < (y.length : ℝ) := by exact_mod_cast hpos
      exact (div_le_div_iff_of_pos_right hc).mpr hsum

/-- Witness for `focal_loss_noclamp_spec` at `y = [1]`, `p = [1]`,
`q = [1/2]`. -/
theorem focal_loss_noclamp_spec_witness :
    (∀ yi ∈ [(1:ℝ)], yi = 0 ∨ yi = 1)
    ∧ (focal_loss_noclamp [(1:ℝ)] [(1:ℝ)] 2 = 0 ∧
       focal_loss_noclamp [(1:ℝ)] [(1:ℝ)] 2 ≤ focal_loss_noclamp [(1:ℝ)] [(1/2:ℝ)] 2) :=
  ⟨by norm_num,
   focal_loss_noclamp_spec [(1:ℝ)] [(1:ℝ)] [(1/2:ℝ)] rfl rfl (by norm_num)
     (by
       intro i hi h
       simp only [List.length_cons, List.length_nil] at hi
       interval_cases i
       refine ⟨by norm_num, by norm_num, by norm_num⟩)⟩

/-! ## Rank lemmas for the scaler -/

theorem argsort_sorted {α : Type} [LinearOrder α] [Inhabited α] (xs : List α) :
    List.Sorted (idxLe xs) (argsort xs) :=
  List.sorted_insertionSort _ _

theorem argsort_perm {α : Type} [LinearOrder α] [Inhabited α] (xs : List α) :
    List.Perm (argsort xs) (List.range xs.length) :=
  List.perm_insertionSort _ _

theorem argsort_nodup {α : Type} [LinearOrder α] [Inhabited α] (xs : List α) :
    (argsort xs).Nodup :=
  (argsort_perm xs).symm.nodup (List.nodup_range _)

theorem argsort_length {α : Type} [LinearOrder α] [Inhabited α] (xs : List α) :
    (argsort xs).length = xs.length :=
  (argsort_perm xs).length_eq.trans (List.length_range _)

theorem mem_argsort {α : Type} [LinearOrder α] [Inhabited α] (xs : List α) {r : ℕ} :
    r ∈ argsort xs ↔ r < xs.length := by
  rw [(argsort_perm xs).mem_iff, List.mem_range]

/-- In a sorted duplicate-free index list, the position of an element is
the number of elements strictly below it. -/
theorem indexOf_sorted_eq_countP {α : Type} [LinearOrder α] [Inhabited α] (xs : List α) :
    ∀ (l : List ℕ), List.Sorted (idxLe xs) l → l.Nodup → ∀ a ∈ l,
      l.indexOf a = l.countP (fun b => decide (idxLt xs b a)) := by
  intro l
  induction l with
  | nil =>
    intro _ _ a ha
    cases ha
  | cons x t ih =>
    intro hs hn a ha
    have hsx : ∀ b ∈ t, idxLe xs x b := List.rel_of_sorted_cons hs
    have hxt : x ∉ t := (List.nodup_cons.1 hn).1
    have hnt : t.Nodup := (List.nodup_cons.1 hn).2
    rcases List.mem_cons.1 ha with rfl | hat
    · rw [List.indexOf_cons_self, List.countP_cons]
      have hpx : decide (idxLt xs a a) = false := by
        simp [idxLt]
      rw [hpx]
      have hz : t.countP (fun b => decide (idxLt xs b a)) = 0 := by
        rw [List.countP_eq_zero]
        intro b hb
        simp only [decide_eq_true_eq]
        rintro ⟨hble, hbne⟩
        exact hbne (antisymm hble (hsx b hb))
      simp [hz]
    · have hxa : x ≠ a := fun h => hxt (h ▸ hat)
      rw [List.indexOf_cons_ne _ hxa, List.countP_cons]
      have hpa : decide (idxLt xs x a) = true := by
        simp only [decide_eq_true_eq]
        exact ⟨hsx a hat, hxa⟩
      rw [ih hs.of_cons hnt a hat, hpa]
      simp

/-- A strictly larger predicate counts strictly more elements when some
list element separates the two. -/
theorem countP_lt_countP (p q : ℕ → Bool) :
    ∀ (l : List ℕ), (∀ k ∈ l, p k = true → q k = true) →
      ∀ a ∈ l, q a = true → p a = false → l.countP p < l.countP q := by
  intro l
  induction l with
  | nil =>
    intro _ a ha
    cases ha
  | cons x t ih =>
    intro hpq a ha hqa hpa
    have hmono : t.countP p ≤ t.countP q :=
      List.countP_mono_left (fun k hk => hpq k (List.mem_cons_of_mem _ hk))
    rw [List.countP_cons, List.countP_cons]
    rcases List.mem_cons.1 ha with rfl | hat
    · rw [hpa, hqa]
      simp only [Bool.false_eq_true, if_false, if_true]
      omega
    · have hrec := ih (fun k hk h => hpq k (List.mem_cons_of_mem _ hk) h) a hat hqa hpa
      cases hx : p x with
      | false =>
        cases hqx : q x with
        | false =>
          simp only [Bool.false_eq_true, if_false]
          omega
        | true =>
          simp only [Bool.false_eq_true, if_false, if_true]
          omega
      | true =>
        rw [hpq x (List.mem_cons_self _ _) hx]
        simp only [if_true]
        omega

/-- The stable rank of `r` is the position of `r` in the sorted index
list. -/
theorem rankOf_eq_indexOf {α : Type} [LinearOrder α] [Inhabited α]
    (xs : List α) {r : ℕ} (hr : r < xs.length) :
    rankOf xs r = (argsort xs).indexOf r := by
  have hmem : r ∈ argsort xs := (mem_argsort xs).2 hr
  rw [indexOf_sorted_eq_countP xs (argsort xs) (argsort_sorted xs) (argsort_nodup xs) r hmem]
  unfold rankOf
  exact ((argsort_perm xs).countP_eq _).symm

/-- Looking up the position of a member returns the member. -/
theorem getD_indexOf_self (l : List ℕ) {r : ℕ} (hr : r ∈ l) :
    l.getD (l.indexOf r) default = r := by
  have h := List.indexOf_lt_length.2 hr
  rw [List.getD_eq_getElem l default h]
  exact List.getElem_indexOf h

/-- The double argsort `np.argsort(np.argsort(xs))` is the list of stable ranks: position `r`
of the double argsort holds the rank of `xs`'s `r`-th element. -/
theorem argsort_argsort {α : Type} [LinearOrder α] [Inhabited α] (xs : List α) :
    argsort (argsort xs) = (List.range xs.length).map (fun r => rankOf xs r) := by
  set i := argsort xs with hi
  set n := xs.length with hn
  have hlen : i.length = n := argsort_length xs
  have hmem : ∀ {r : ℕ}, r < n → r ∈ i := fun hr => (mem_argsort xs).2 hr
  have hmapeq : (List.range n).map (fun r => rankOf xs r) =
      (List.range n).map (fun r => i.indexOf r) :=
    List.map_eq_map_iff.mpr (fun r hr => rankOf_eq_indexOf xs (List.mem_range.1 hr))
  rw [hmapeq]
  have hperm1 : List.Perm (argsort i) (List.range n) := by
    have h := argsort_perm i
    rwa [hlen] at h
  have hnodupR : ((List.range n).map (fun r => i.indexOf r)).Nodup := by
    apply (List.nodup_map_iff_inj_on (List.nodup_range n)).mpr
    intro x hx y hy hxy
    have hxm : x ∈ i := hmem (List.mem_range.1 hx)
    have hym : y ∈ i := hmem (List.mem_range.1 hy)
    have h := congrArg (fun t => i.getD t default) hxy
    simp only at h
    rwa [getD_indexOf_self i hxm, getD_indexOf_self i hym] at h
  have hsubR : ((List.range n).map (fun r => i.indexOf r)) ⊆ List.range n := by
    intro z hz
    rcases List.mem_map.1 hz with ⟨r, hr, rfl⟩
    have h := List.indexOf_lt_length.2 (hmem (List.mem_range.1 hr))
    rw [hlen] at h
    exact List.mem_range.2 h
  have hpermR : List.Perm ((List.range n).map (fun r => i.indexOf r)) (List.range n) := by
    apply (hnodupR.subperm hsubR).perm_of_length_le
    simp
  have hsorted : List.Sorted (idxLe i) ((List.range n).map (fun r => i.indexOf r)) := by
    unfold List.Sorted
    rw [List.pairwise_map]
    apply List.Pairwise.imp_of_mem ?_ (List.pairwise_lt_range n)
    intro a b ha hb hab
    apply Or.inl
    rw [getD_indexOf_self i (hmem (List.mem_range.1 ha)),
        getD_indexOf_self i (hmem (List.mem_range.1 hb))]
    exact hab
  exact List.eq_of_perm_of_sorted (hperm1.trans hpermR.symm) (argsort_sorted i) hsorted

/-- Ranks are strictly below the column length. -/
theorem rankOf_lt {α : Type} [LinearOrder α] [Inhabited α]
    (xs : List α) {r : ℕ} (hr : r < xs.length) : rankOf xs r < xs.length := by
  have h := countP_lt_countP (fun k => decide (idxLt xs k r)) (fun _ => true)
    (List.range xs.length) (fun k _ _ => rfl) r (List.mem_range.2 hr) rfl
    (by simp [idxLt])
  rw [List.countP_eq_length.mpr (fun a _ => rfl), List.length_range] at h
  exact h

/-- A strictly smaller value has a strictly smaller rank. -/
theorem rankOf_lt_rankOf {α : Type} [LinearOrder α] [Inhabited α]
    (xs : List α) {a b : ℕ} (ha : a < xs.length)
    (hab : xs.getD a default < xs.getD b default) :
    rankOf xs a < rankOf xs b := by
  unfold rankOf
  apply countP_lt_countP _ _ _ ?_ a (List.mem_range.2 ha) ?_ ?_
  · intro k _ hpk
    simp only [decide_eq_true_eq] at hpk ⊢
    refine ⟨Or.inl ?_, ?_⟩
    · rcases hpk.1 with h | ⟨h, _⟩
      · exact h.trans hab
      · rw [h]
        exact hab
    · rintro rfl
      rcases hpk.1 with h | ⟨h, _⟩
      · exact absurd (h.trans hab) (lt_irrefl _)
      · rw [h] at hab
        exact lt_irrefl _ hab
  · simp only [decide_eq_true_eq]
    refine ⟨Or.inl hab, ?_⟩
    rintro rfl
    exact lt_irrefl _ hab
  · simp [idxLt]

/-! ## Rescaling lemmas -/

theorem grRange_pos : 0 < grRange := by
  norm_num [grRange, grUpper, grLower, grEpsilon]

theorem grLower_eq_neg : grLower = -grUpper := by
  unfold grLower grUpper
  ring

theorem neg_one_lt_grLower : (-1 : ℚ) < grLower := by
  norm_num [grLower, grEpsilon]

theorem grUpper_lt_one : grUpper < 1 := by
  norm_num [grUpper, grEpsilon]

theorem grRange_sub_grUpper : grRange - grUpper = grUpper := by
  unfold grRange grUpper grLower
  ring

theorem divider_pos {n : ℕ} (h2 : 2 ≤ n) : 0 < divider n := by
  unfold divider
  apply div_pos ?_ grRange_pos
  have h : (2:ℚ) ≤ (n:ℚ) := by exact_mod_cast h2
  linarith

theorem nsub_div_divider {n : ℕ} (h2 : 2 ≤ n) : ((n:ℚ) - 1) / divider n = grRange := by
  unfold divider
  have h : (2:ℚ) ≤ (n:ℚ) := by exact_mod_cast h2
  have hne : (n:ℚ) - 1 ≠ 0 := by
    intro h0
    rw [sub_eq_zero] at h0
    rw [h0] at h
    norm_num at h
  have hr := grRange_pos
  field_simp

theorem rescale_le_grUpper {n j : ℕ} (h2 : 2 ≤ n) (hj : j ≤ n - 1) :
    rescale n j ≤ grUpper := by
  unfold rescale
  have hd := divider_pos h2
  have hcast : (j:ℚ) ≤ (n:ℚ) - 1 := by
    have h1 : (1:ℕ) ≤ n := by omega
    have h := (Nat.cast_le (α := ℚ)).2 hj
    rwa [Nat.cast_sub h1, Nat.cast_one] at h
  have hdiv : (j:ℚ) / divider n ≤ ((n:ℚ) - 1) / divider n :=
    (div_le_div_iff_of_pos_right hd).mpr hcast
  rw [nsub_div_divider h2] at hdiv
  have := grRange_sub_grUpper
  linarith

theorem grLower_le_rescale {n : ℕ} (j : ℕ) (h2 : 2 ≤ n) : grLower ≤ rescale n j := by
  unfold rescale
  have hd := divider_pos h2
  have h0 : (0:ℚ) ≤ (j:ℚ) / divider n := div_nonneg (Nat.cast_nonneg j) (le_of_lt hd)
  have hl := grLower_eq_neg
  linarith

theorem rescale_lt_rescale {n j j' : ℕ} (h2 : 2 ≤ n) (hjj : j < j') :
    rescale n j < rescale n j' := by
  unfold rescale
  have hd := divider_pos h2
  have hc : (j:ℚ) < (j':ℚ) := by exact_mod_cast hjj
  have := (div_lt_div_iff_of_pos_right hd).mpr hc
  linarith

theorem rescale_reflect {n j : ℕ} (h2 : 2 ≤ n) (hj : j ≤ n - 1) :
    rescale n (n - 1 - j) = -rescale n j := by
  unfold rescale
  have h1 : (1:ℕ) ≤ n := by omega
  have hcast : ((n - 1 - j : ℕ) : ℚ) = (n:ℚ) - 1 - (j:ℚ) := by
    rw [Nat.cast_sub hj, Nat.cast_sub h1, Nat.cast_one]
  rw [hcast, sub_div, nsub_div_divider h2]
  have := grRange_sub_grUpper
  linarith

theorem rescale_cast_mem {n j : ℕ} (h2 : 2 ≤ n) (hj : j ≤ n - 1) :
    (-1:ℝ) < ((rescale n j : ℚ) : ℝ) ∧ ((rescale n j : ℚ) : ℝ) < 1 := by
  constructor
  · have h := lt_of_lt_of_le neg_one_lt_grLower (grLower_le_rescale j h2)
    exact_mod_cast h
  · have h := lt_of_le_of_lt (rescale_le_grUpper h2 hj) grUpper_lt_one
    exact_mod_cast h

/-! ## The fitted column -/

/-- The column formula of `fit_transform`: entry `r` is `erfinv` of the
rescaled stable rank of `xs`'s `r`-th value. -/
theorem fitColumn_eq (xs : List ℚ) :
    fitColumn xs = (List.range xs.length).map
      (fun r => erfinv ((rescale xs.length (rankOf xs r) : ℚ) : ℝ)) := by
  unfold fitColumn
  rw [argsort_argsort, List.map_map]
  rfl

theorem fitColumn_getD (xs : List ℚ) {a : ℕ} (ha : a < xs.length) :
    (fitColumn xs).getD a 0 = erfinv ((rescale xs.length (rankOf xs a) : ℚ) : ℝ) := by
  rw [fitColumn_eq]
  have hlen : a < ((List.range xs.length).map
      (fun r => erfinv ((rescale xs.length (rankOf xs r) : ℚ) : ℝ))).length := by
    simpa using ha
  rw [List.getD_eq_getElem _ 0 hlen]
  simp

theorem sum_erfinv_rescale {n : ℕ} (h2 : 2 ≤ n) :
    ∑ j in Finset.range n, erfinv ((rescale n j : ℚ) : ℝ) = 0 := by
  have hrefl := Finset.sum_range_reflect (fun j => erfinv ((rescale n j : ℚ) : ℝ)) n
  have hneg : ∀ j ∈ Finset.range n,
      erfinv ((rescale n (n - 1 - j) : ℚ) : ℝ) = -erfinv ((rescale n j : ℚ) : ℝ) := by
    intro j hj
    have hj' : j ≤ n - 1 := by
      have := Finset.mem_range.1 hj
      omega
    rw [rescale_reflect h2 hj', Rat.cast_neg]
    exact erfinv_neg (rescale_cast_mem h2 hj').1 (rescale_cast_mem h2 hj').2
  have hsum : ∑ j in Finset.range n, erfinv ((rescale n (n - 1 - j) : ℚ) : ℝ)
      = -∑ j in Finset.range n, erfinv ((rescale n j : ℚ) : ℝ) := by
    rw [Finset.sum_congr rfl hneg, Finset.sum_neg_distrib]
  rw [hrefl] at hsum
  linarith

theorem fitColumn_sum_zero (xs : List ℚ) (h2 : 2 ≤ xs.length) :
    (fitColumn xs).sum = 0 := by
  unfold fitColumn
  have hperm : List.Perm (argsort (argsort xs)) (List.range xs.length) := by
    have h := argsort_perm (argsort xs)
    rwa [argsort_length xs] at h
  have hsum := (hperm.map (fun j => erfinv ((rescale xs.length j : ℚ) : ℝ))).sum_eq
  rw [hsum]
  exact sum_erfinv_rescale h2

/-- C3 (intended semantics; the notebook never imports `scipy`, so the
actual `fit_transform` call raises `NameError` before returning): the
scaler works independently per column; each column is mapped to `erfinv`
of its stable ranks (ties broken by original position) linearly rescaled
by `j / divider - upper`, and every rescaled rank lies in
`[-1 + 1e-9, 1 - 1e-9]`. -/
theorem fit_transform_spec (X : List (List ℚ)) (h2 : ∀ xs ∈ X, 2 ≤ xs.length) :
    (fit_transform X).2 = X.map (fun xs => (List.range xs.length).map
      (fun r => erfinv ((rescale xs.length (rankOf xs r) : ℚ) : ℝ)))
    ∧ ∀ xs ∈ X, ∀ r, r < xs.length →
        grLower ≤ rescale xs.length (rankOf xs r)
        ∧ rescale xs.length (rankOf xs r) ≤ grUpper := by
  constructor
  · show X.map fitColumn = _
    exact List.map_eq_map_iff.mpr (fun xs _ => fitColumn_eq xs)
  · intro xs hxs r hr
    have hn := h2 xs hxs
    have hrank := rankOf_lt xs hr
    exact ⟨grLower_le_rescale _ hn, rescale_le_grUpper hn (by omega)⟩

/-- Witness for `fit_transform_spec` on the one-column matrix `[[0, 1]]`. -/
theorem fit_transform_spec_witness :
    (∀ xs ∈ [[(0:ℚ), 1]], 2 ≤ xs.length)
    ∧ ((fit_transform [[(0:ℚ), 1]]).2 = [[(0:ℚ), 1]].map
        (fun xs => (List.range xs.length).map
          (fun r => erfinv ((rescale xs.length (rankOf xs r) : ℚ) : ℝ)))
      ∧ ∀ xs ∈ [[(0:ℚ), 1]], ∀ r, r < xs.length →
          grLower ≤ rescale xs.length (rankOf xs r)
          ∧ rescale xs.length (rankOf xs r) ≤ grUpper) :=
  ⟨by decide, fit_transform_spec [[(0:ℚ), 1]] (by decide)⟩

/-- C4 (amended): per column the transform is strictly monotone in the
input values, and each fitted column has mean exactly zero.  (The claim's
"approximately unit-scale" part fails: see `fitColumn_not_unit_scale`.) -/
theorem fitColumn_strictMono_and_zero_mean (xs : List ℚ) (h2 : 2 ≤ xs.length)
    (a b : ℕ) (ha : a < xs.length) (hb : b < xs.length)
    (hab : xs.getD a default < xs.getD b default) :
    (fitColumn xs).getD a 0 < (fitColumn xs).getD b 0
    ∧ meanList (fitColumn xs) = 0 := by
  constructor
  · rw [fitColumn_getD xs ha, fitColumn_getD xs hb]
    have hrab : rankOf xs a < rankOf xs b := rankOf_lt_rankOf xs ha hab
    have hra : rankOf xs a ≤ xs.length - 1 := by
      have := rankOf_lt xs ha
      omega
    have hrb : rankOf xs b ≤ xs.length - 1 := by
      have := rankOf_lt xs hb
      omega
    have hlt : rescale xs.length (rankOf xs a) < rescale xs.length (rankOf xs b) :=
      rescale_lt_rescale h2 hrab
    apply erfinv_strictMonoOn (rescale_cast_mem h2 hra).1 (rescale_cast_mem h2 hrb).2
    exact_mod_cast hlt
  · unfold meanList
    rw [fitColumn_sum_zero xs h2, zero_div]

/-- Witness for `fitColumn_strictMono_and_zero_mean` on the column
`[0, 1]` at positions `0 < 1`. -/
theorem fitColumn_strictMono_and_zero_mean_witness :
    ([(0:ℚ), 1].getD 0 default < [(0:ℚ), 1].getD 1 default)
    ∧ ((fitColumn [(0:ℚ), 1]).getD 0 0 < (fitColumn [(0:ℚ), 1]).getD 1 0
       ∧ meanList (fitColumn [(0:ℚ), 1]) = 0) :=
  ⟨by decide,
   fitColumn_strictMono_and_zero_mean [(0:ℚ), 1] (by decide) 0 1
     (by decide) (by decide) (by decide)⟩

/-- C4 counterexample: for the training column `[0, 1]` the transformed
column (whose mean is zero) has mean square — its population variance —
greater than `4`: the transformed values are `±erfinv(1 - 1e-9)`, of
magnitude above `2`, so the fitted column is not approximately
unit-scale. -/
theorem fitColumn_not_unit_scale :
    4 < meanList ((fitColumn [(0:ℚ), 1]).map (fun v => v * v)) := by
  have harg : argsort (argsort [(0:ℚ), 1]) = [0, 1] := by decide
  have hfit : fitColumn [(0:ℚ), 1] =
      [erfinv ((rescale 2 0 : ℚ) : ℝ), erfinv ((rescale 2 1 : ℚ) : ℝ)] := by
    unfold fitColumn
    rw [harg]
    rfl
  have hr0 : rescale 2 0 = grLower := by
    unfold rescale divider grRange grUpper grLower grEpsilon
    norm_num
  have hr1 : rescale 2 1 = grUpper := by
    unfold rescale divider grRange grUpper grLower grEpsilon
    norm_num
  have hcastU : ((grUpper : ℚ) : ℝ) = 1 - 1e-9 := by
    unfold grUpper grEpsilon
    push_cast
    norm_num
  have hcastL : ((grLower : ℚ) : ℝ) = -(1 - 1e-9) := by
    unfold grLower grEpsilon
    push_cast
    norm_num
  have hodd : erfinv ((grLower : ℚ) : ℝ) = -erfinv (1 - 1e-9) := by
    rw [hcastL]
    exact erfinv_neg (by norm_num) (by norm_num)
  have hgt := two_lt_erfinv_upper
  rw [hfit, hr0, hr1]
  unfold meanList
  simp only [List.map_cons, List.map_nil, List.sum_cons, List.sum_nil,
    List.length_cons, List.length_nil]
  rw [hodd, hcastU]
  push_cast
  nlinarith [hgt]

/-- C5: `fit_transform` stores the scalar divider as the fitted state,
but `class GaussRankScaler` defines no `transform` method, so the
notebook's `scaler.transform(X_test)` call fails with `AttributeError`. -/
theorem gaussRankScaler_no_transform :
    "transform" ∉ gaussRankScalerMethods
    ∧ "fit_transform" ∈ gaussRankScalerMethods
    ∧ (fit_transform [[(0:ℚ), 1]]).1.divider = 1 / grRange := by
  refine ⟨by decide, by decide, ?_⟩
  show divider (numRows [[(0:ℚ), 1]]) = 1 / grRange
  norm_num [numRows, divider]

/-! ## Training loop theorems -/

/-- After at least one epoch, the tracked best validation loss is the
minimum of the per-epoch mean validation losses so far. -/
theorem bestAndSaves_fst (vl : ℕ → ℝ) :
    ∀ (E : ℕ) (hE : 1 ≤ E), (bestAndSaves vl E).1 =
      some ((Finset.range E).inf'
        (Finset.nonempty_range_iff.mpr (by omega)) vl) := by
  intro E
  induction E with
  | zero => omega
  | succ e ih =>
    intro _
    cases e with
    | zero =>
      have h1 : (bestAndSaves vl 1).1 = some (vl 0) := rfl
      have h2 : (Finset.range (0 + 1)).inf'
          (Finset.nonempty_range_iff.mpr (by omega)) vl = vl 0 := by
        rw [Finset.inf'_congr _ Finset.range_one (fun _ _ => rfl)]
        simp
      rw [h1, h2]
    | succ e' =>
      have hprev := ih (by omega)
      show (match (bestAndSaves vl (e' + 1)).1 with
        | none => (some (vl (e' + 1)), (bestAndSaves vl (e' + 1)).2 ++ [e' + 1])
        | some b => if vl (e' + 1) < b
            then (some (vl (e' + 1)), (bestAndSaves vl (e' + 1)).2 ++ [e' + 1])
            else bestAndSaves vl (e' + 1)).1 = _
      rw [hprev]
      simp only []
      have hins : Finset.range (e' + 1 + 1) = insert (e' + 1) (Finset.range (e' + 1)) :=
        Finset.range_succ
      have hne : (Finset.range (e' + 1)).Nonempty :=
        Finset.nonempty_range_iff.mpr (by omega)
      have hinf : (Finset.range (e' + 1 + 1)).inf'
          (Finset.nonempty_range_iff.mpr (by omega)) vl
          = vl (e' + 1) ⊓ (Finset.range (e' + 1)).inf' hne vl := by
        rw [Finset.inf'_congr (Finset.nonempty_range_iff.mpr (by omega)) hins (fun _ _ => rfl)]
        exact Finset.inf'_insert hne vl
      rw [hinf]
      set b := (Finset.range (e' + 1)).inf' hne vl with hb
      by_cases hlt : vl (e' + 1) < b
      · rw [if_pos hlt]
        rw [inf_eq_left.mpr (le_of_lt hlt)]
      · rw [if_neg hlt, hprev]
        rw [inf_eq_right.mpr (not_lt.1 hlt)]

/-- The save log records exactly the epochs whose mean validation loss
strictly improves on every earlier epoch's. -/
theorem bestAndSaves_snd (vl : ℕ → ℝ) :
    ∀ (E e : ℕ), e ∈ (bestAndSaves vl E).2 ↔
      (e < E ∧ ∀ e', e' < e → vl e < vl e') := by
  intro E
  induction E with
  | zero =>
    intro e
    show e ∈ ([] : List ℕ) ↔ _
    simp
  | succ E ih =>
    intro e
    have hstep : (bestAndSaves vl (E + 1)).2 =
        (match (bestAndSaves vl E).1 with
          | none => (bestAndSaves vl E).2 ++ [E]
          | some b => if vl E < b then (bestAndSaves vl E).2 ++ [E]
              else (bestAndSaves vl E).2) := by
      show (match (bestAndSaves vl E).1 with
        | none => (some (vl E), (bestAndSaves vl E).2 ++ [E])
        | some b => if vl E < b then (some (vl E), (bestAndSaves vl E).2 ++ [E])
            else bestAndSaves vl E).2 = _
      cases h1 : (bestAndSaves vl E).1 with
      | none => rfl
      | some b =>
        dsimp only
        by_cases hlt : vl E < b
        · rw [if_pos hlt, if_pos hlt]
        · rw [if_neg hlt, if_neg hlt]
    rw [hstep]
    cases hE0 : E with
    | zero =>
      show e ∈ (match (bestAndSaves vl 0).1 with
        | none => (bestAndSaves vl 0).2 ++ [0]
        | some b => if vl 0 < b then (bestAndSaves vl 0).2 ++ [0]
            else (bestAndSaves vl 0).2) ↔ _
      show e ∈ ([] : List ℕ) ++ [0] ↔ _
      constructor
      · intro h
        have he : e = 0 := by simpa using h
        subst he
        exact ⟨by omega, fun e' he' => absurd he' (by omega)⟩
      · intro ⟨h1, _⟩
        have : e = 0 := by omega
        subst this
        simp
    | succ E' =>
      rw [← hE0]
      have h1E : 1 ≤ E := by omega
      rw [bestAndSaves_fst vl E h1E]
      simp only []
      have hne : (Finset.range E).Nonempty := Finset.nonempty_range_iff.mpr (by omega)
      by_cases hlt : vl E < (Finset.range E).inf' (Finset.nonempty_range_iff.mpr (by omega)) vl
      · rw [if_pos hlt]
        rw [List.mem_append]
        constructor
        · rintro (h | h)
          · rcases (ih e).1 h with ⟨he, hcond⟩
            exact ⟨by omega, hcond⟩
          · have he : e = E := by simpa using h
            subst he
            refine ⟨by omega, fun e' he' => ?_⟩
            have := (Finset.lt_inf'_iff _).1 hlt e' (Finset.mem_range.2 he')
            exact this
        · rintro ⟨hlt1, hcond⟩
          by_cases heE : e = E
          · subst heE
            right
            simp
          · left
            exact (ih e).2 ⟨by omega, hcond⟩
      · rw [if_neg hlt]
        rw [ih e]
        constructor
        · rintro ⟨he, hcond⟩
          exact ⟨by omega, hcond⟩
        · rintro ⟨he, hcond⟩
          refine ⟨?_, hcond⟩
          by_cases heE : e = E
          · subst heE
            exfalso
            apply hlt
            rw [Finset.lt_inf'_iff]
            intro b hb
            exact hcond b (Finset.mem_range.1 hb)
          · omega

/-- C6: `train_model` returns the arithmetic mean over folds of the
per-fold minimum mean validation loss, and parameters are saved to fold
`f`'s checkpoint exactly at the epochs whose mean validation loss
strictly improves on all earlier epochs of that fold. -/
theorem train_model_spec (vloss : ℕ → ℕ → ℝ) (n_splits epochs : ℕ)
    (hE : 1 ≤ epochs) :
    (train_model vloss n_splits epochs).1 =
      meanList ((List.range n_splits).map (fun f =>
        (Finset.range epochs).inf'
          (Finset.nonempty_range_iff.mpr (by omega)) (vloss f)))
    ∧ ∀ f e, (f, e) ∈ (train_model vloss n_splits epochs).2 ↔
        (f < n_splits ∧ e < epochs ∧ ∀ e', e' < e → vloss f e < vloss f e') := by
  constructor
  · show meanList (((List.range n_splits).map _).map Prod.fst) = _
    rw [List.map_map]
    congr 1
    apply List.map_eq_map_iff.mpr
    intro f _
    show ((bestAndSaves (vloss f) epochs).1.getD 0) = _
    rw [bestAndSaves_fst (vloss f) epochs hE]
    rfl
  · intro f e
    show (f, e) ∈ (((List.range n_splits).map _).map Prod.snd).flatten ↔ _
    rw [List.map_map]
    constructor
    · intro h
      rcases List.mem_flatten.1 h with ⟨l, hl, hmem⟩
      rcases List.mem_map.1 hl with ⟨f', hf', rfl⟩
      simp only [Function.comp] at hmem
      rcases List.mem_map.1 hmem with ⟨e', he', heq⟩
      injection heq with hf1 he1
      subst hf1
      subst he1
      rcases (bestAndSaves_snd (vloss f') epochs e').1 he' with ⟨h1, h2⟩
      exact ⟨List.mem_range.1 hf', h1, h2⟩
    · rintro ⟨hf, he, hcond⟩
      apply List.mem_flatten.2
      refine ⟨((bestAndSaves (vloss f) epochs).2).map (fun e => (f, e)), ?_, ?_⟩
      · apply List.mem_map.2
        exact ⟨f, List.mem_range.2 hf, rfl⟩

      · apply List.mem_map.2
        exact ⟨e, (bestAndSaves_snd (vloss f) epochs e).2 ⟨he, hcond⟩, rfl⟩

/-- Witness for `train_model_spec` at one fold and one epoch. -/
theorem train_model_spec_witness :
    (1 ≤ 1)
    ∧ ((train_model (fun _ e => (e : ℝ)) 1 1).1 =
        meanList ((List.range 1).map (fun _ =>
          (Finset.range 1).inf'
            (Finset.nonempty_range_iff.mpr (by omega)) (fun e => (e : ℝ))))
      ∧ ∀ f e, (f, e) ∈ (train_model (fun _ e => (e : ℝ)) 1 1).2 ↔
          (f < 1 ∧ e < 1 ∧ ∀ e', e' < e → (e : ℝ) < (e' : ℝ))) :=
  ⟨le_refl 1, train_model_spec (fun _ e => (e : ℝ)) 1 1 (le_refl 1)⟩

/-! ## Experiment call compatibility (C7) -/

/-- C7 refuted: of the four experiment invocations, only experiment 2's
matches `train_model`'s signature; experiments 1, 3 and 4 pass the
keyword `criterion`, which `train_model` does not accept, so Python
raises `TypeError` instead of training those variants. -/
theorem experiment_calls :
    callAccepted exp2Kwargs = true
    ∧ callAccepted exp1Kwargs = false
    ∧ callAccepted exp3Kwargs = false
    ∧ callAccepted exp4Kwargs = false := by
  refine ⟨?_, ?_, ?_, ?_⟩ <;> decide

/-! ## Checkpoint overwriting (C10) -/

/-- After `k` sequential per-fold writes, fold `f`'s file holds the last
value written to it. -/
theorem runCkWrites_lookup {α : Type} (fs : FS α) (c : ℕ → α) :
    ∀ (k f : ℕ), runCkWrites fs c k f = if f < k then some (c f) else fs f := by
  intro k
  induction k with
  | zero =>
    intro f
    show fs f = _
    simp
  | succ k ih =>
    intro f
    show ((List.range (k + 1)).foldl (fun acc g => fsWrite acc g (c g)) fs) f = _
    rw [List.range_succ, List.foldl_append]
    simp only [List.foldl_cons, List.foldl_nil]
    show (fun g => if g = k then some (c k) else runCkWrites fs c k g) f = _
    by_cases hf : f = k
    · subst hf
      simp
    · simp only [hf, if_false]
      rw [ih f]
      by_cases h2 : f < k
      · rw [if_pos h2, if_pos (by omega)]
      · rw [if_neg h2, if_neg (by omega)]

/-- C10: the per-fold checkpoint files are shared mutable state across
`train_model` invocations: a later call's writes overwrite an earlier
call's for the same fold indices, the inference loads that follow see
exactly the later call's parameters, and (where the parameter sets
differ) the earlier call's parameters are no longer loadable. -/
theorem checkpoints_overwritten {α : Type} (fs : FS α) (c1 c2 : ℕ → α) (k f : ℕ)
    (hf : f < k) :
    runCkWrites (runCkWrites fs c1 k) c2 k f = some (c2 f)
    ∧ predictLoad (runCkWrites (runCkWrites fs c1 k) c2 k) k
        = (List.range k).map (fun g => some (c2 g))
    ∧ (c1 f ≠ c2 f → runCkWrites (runCkWrites fs c1 k) c2 k f ≠ some (c1 f)) := by
  refine ⟨?_, ?_, ?_⟩
  · rw [runCkWrites_lookup]
    rw [if_pos hf]
  · unfold predictLoad
    apply List.map_eq_map_iff.mpr
    intro g hg
    rw [runCkWrites_lookup]
    rw [if_pos (List.mem_range.1 hg)]
  · intro hne
    rw [runCkWrites_lookup, if_pos hf]
    intro h
    exact hne (Option.some_injective _ h).symm

/-- Witness for `checkpoints_overwritten`: one fold, two successive
experiments writing `0` then `1`. -/
theorem checkpoints_overwritten_witness :
    (0 < 1)
    ∧ (runCkWrites (runCkWrites (fun _ => none) (fun _ => (0:ℕ)) 1) (fun _ => (1:ℕ)) 1 0
        = some 1
      ∧ predictLoad (runCkWrites (runCkWrites (fun _ => none) (fun _ => (0:ℕ))
          1) (fun _ => (1:ℕ)) 1) 1 = (List.range 1).map (fun _ => some 1)
      ∧ ((fun _ : ℕ => (0:ℕ)) 0 ≠ (fun _ : ℕ => (1:ℕ)) 0 →
          runCkWrites (runCkWrites (fun _ => none) (fun _ => (0:ℕ)) 1)
            (fun _ => (1:ℕ)) 1 0 ≠ some 0)) :=
  ⟨Nat.zero_lt_one,
   checkpoints_overwritten (fun _ => none) (fun _ => (0:ℕ)) (fun _ => (1:ℕ)) 1 0
     Nat.zero_lt_one⟩

/-! ## Submission theorems (C9) -/

theorem sigmoid_bounds (x : ℝ) : 0 ≤ sigmoid x ∧ sigmoid x ≤ 1 := by
  unfold sigmoid
  have hexp := Real.exp_pos (-x)
  constructor
  · positivity
  · rw [div_le_one (by linarith)]
    linarith

/-- Every output of the student model is a sigmoid value in `[0, 1]`. -/
theorem forward_mem_unit (m : StudentModel) (x : List ℝ) :
    ∀ v ∈ m.forward x, 0 ≤ v ∧ v ≤ 1 := by
  intro v hv
  unfold StudentModel.forward at hv
  rcases List.mem_map.1 hv with ⟨u, _, rfl⟩
  exact sigmoid_bounds u

/-- An index into a list of unit-interval values (with default `0`)
stays in the unit interval. -/
theorem getD_unit (l : List ℝ) (h : ∀ v ∈ l, 0 ≤ v ∧ v ≤ 1) (i : ℕ) :
    0 ≤ l.getD i 0 ∧ l.getD i 0 ≤ 1 := by
  by_cases hi : i < l.length
  · rw [List.getD_eq_getElem l 0 hi]
    exact h _ (List.getElem_mem hi)
  · rw [List.getD_eq_default l 0 (by omega)]
    norm_num

/-- The mean of a nonempty list of unit-interval values stays in the
unit interval. -/
theorem meanList_unit (l : List ℝ) (hne : l ≠ [])
    (h : ∀ v ∈ l, 0 ≤ v ∧ v ≤ 1) : 0 ≤ meanList l ∧ meanList l ≤ 1 := by
  have hpos : 0 < (l.length : ℝ) := by
    have := List.length_pos.2 hne
    exact_mod_cast this
  have hsum0 : 0 ≤ l.sum := List.sum_nonneg (fun v hv => (h v hv).1)
  have hsum1 : l.sum ≤ (l.length : ℝ) := by
    have := List.sum_le_card_nsmul l 1 (fun v hv => (h v hv).2)
    simpa using this
  unfold meanList
  constructor
  · exact div_nonneg hsum0 (le_of_lt hpos)
  · rw [div_le_one hpos]
    exact hsum1

/-- C9: the submission target column has exactly one entry per test row,
and every entry — a fold-average of first-column sigmoid outputs — lies
in `[0, 1]`. -/
theorem submission_spec (models : List StudentModel) (Xtest : List (List ℝ))
    (hne : models ≠ []) :
    (submissionTargets models Xtest).length = Xtest.length
    ∧ ∀ v ∈ submissionTargets models Xtest, 0 ≤ v ∧ v ≤ 1 := by
  constructor
  · unfold submissionTargets final_preds
    rw [List.length_map, List.length_range]
  · intro v hv
    unfold submissionTargets final_preds at hv
    rcases List.mem_map.1 hv with ⟨i, _, rfl⟩
    apply meanList_unit
    · intro hmap
      rcases List.map_eq_nil_iff.1 hmap with h1
      exact hne (List.map_eq_nil_iff.1 h1)
    · intro w hw
      rcases List.mem_map.1 hw with ⟨preds, hpreds, rfl⟩
      rcases List.mem_map.1 hpreds with ⟨m, _, rfl⟩
      apply getD_unit
      intro u hu
      unfold predictFold at hu
      rcases List.mem_map.1 hu with ⟨row, _, rfl⟩
      exact getD_unit _ (forward_mem_unit m row) 0

/-- Witness for `submission_spec`: a single (empty-parameter) model and
a one-row test set. -/
theorem submission_spec_witness :
    (([⟨⟨[], []⟩, ⟨[], []⟩⟩] : List StudentModel) ≠ [])
    ∧ ((submissionTargets [⟨⟨[], []⟩, ⟨[], []⟩⟩] [[(0:ℝ)]]).length = [[(0:ℝ)]].length
      ∧ ∀ v ∈ submissionTargets [⟨⟨[], []⟩, ⟨[], []⟩⟩] [[(0:ℝ)]], 0 ≤ v ∧ v ≤ 1) :=
  ⟨List.cons_ne_nil _ _,
   submission_spec [⟨⟨[], []⟩, ⟨[], []⟩⟩] [[(0:ℝ)]] (List.cons_ne_nil _ _)⟩

end KD
